import Mathlib

/-!
BLS12-381: the G1 affine group and its point encodings.

A shallow embedding of `src/group/g1_affine.cpp` together with the inline
operators of `include/group/g1_affine.h` and `include/group/g1_projective.h`.

Only the declarations of `Fp` and `G1Projective` are part of the sources
(`include/field/fp.h`, `include/group/g1_projective.h`); their member functions
and the constants of `field/constant.h` are modelled from the specification and
are marked as such.

Byte arrays (`std::array<uint8_t, N>`) are lists of naturals, every entry below
`256`; a field element is represented by the residue it stands for, so the
Montgomery limbs of the C++ class are abstracted to `ZMod MODULUS`. That `MODULUS`
is prime, hence `Fp` a field, is proved from a certificate over the divisors of
`MODULUS - 1`; only the results on projective equality and inversion use it.
-/

/-! ## The base field -/

/-- Modelled from the spec: the base field prime `p` (381 bits); the constant lives in
`field/constant.h`, which is not part of the sources. -/
def MODULUS : Nat :=
  0x1a0111ea397fe69a4b1ba7b6434bacd764774b84f38512bf6730d2a0f6b0f6241eabfffeb153ffffb9feffffffffaaab

instance MODULUS_neZero : NeZero MODULUS := ⟨by decide⟩

/-- Modelled from the spec: class `Fp` (only declared in `include/field/fp.h`). The invariant
"value < p, always in Montgomery form" lets an element be identified with the residue
it represents; `operator==` on limbs is then equality of residues. -/
abbrev Fp := ZMod MODULUS

namespace Fp

/-- Modelled from the spec: `Fp::zero()`. -/
def zero : Fp := 0

/-- Modelled from the spec: `Fp::one()`. -/
def one : Fp := 1

/-- Modelled from the spec: `Fp::is_zero`. -/
def is_zero (a : Fp) : Bool := decide (a = 0)

/-- Modelled from the spec: `Fp::square`. -/
def square (a : Fp) : Fp := a * a

/-- Modelled from the spec: `Fp::lexicographically_largest`, "true iff the canonical
(non-Montgomery) representative exceeds (p-1)/2". -/
def lexicographically_largest (a : Fp) : Bool := decide ((MODULUS - 1) / 2 < a.val)

/-- Left-to-right square-and-multiply over the low `n` bits of `exp`. -/
def pow_bits (a : Fp) (exp : Nat) : Nat → Fp
  | 0 => 1
  | n + 1 =>
    let r := pow_bits a (exp / 2) n
    if exp % 2 = 1 then r * r * a else r * r

/-- Modelled from the spec: `Fp::pow`, "`pow(exp)` where exp is a 384-bit little-endian
integer" (six 64-bit limbs, here their value). -/
@[irreducible]
def pow (a : Fp) (exp : Nat) : Fp := pow_bits a exp 384

/-- Modelled from the spec: `Fp::sqrt`, "candidate = a^((p+1)/4); result is candidate iff
candidate² = a, else none". -/
def sqrt (a : Fp) : Option Fp :=
  let candidate := pow a ((MODULUS + 1) / 4)
  if candidate * candidate = a then some candidate else none

/-- Modelled from the spec: `Fp::invert`, "Inversion uses Fermat's little theorem: raise to
p-2. ... Returns none iff the input is zero". -/
def invert (a : Fp) : Option Fp :=
  if a = 0 then none else some (pow a (MODULUS - 2))

/-- Value of a big-endian byte string. -/
def be_value (bytes : List Nat) : Nat := bytes.foldl (fun acc b => acc * 256 + b) 0

/-- The `n` low base-256 digits of `v`, most significant first. -/
def be_bytes : Nat → Nat → List Nat
  | 0, _ => []
  | n + 1, v => be_bytes n (v / 256) ++ [v % 256]

/-- Modelled from the spec: `Fp::from_bytes`, "interprets bytes as big-endian integer,
checks < p, ...; returns none on failure". -/
@[irreducible]
def from_bytes (bytes : List Nat) : Option Fp :=
  if be_value bytes < MODULUS then some (be_value bytes : Fp) else none

/-- Modelled from the spec: `Fp::to_bytes`, "serialization to 48 bytes (big-endian canonical
form)". -/
@[irreducible]
def to_bytes (a : Fp) : List Nat := be_bytes 48 a.val

end Fp

/-- Modelled from the spec: the curve constant `B = 4` of `field/constant.h`. -/
def B : Fp := 4

/-- Modelled from the spec: `BETA` of `field/constant.h`, "a non-trivial cube root of unity in
Fp (used by the endomorphism)"; of the two such roots this is the one for which the
subgroup check accepts the generator. -/
def BETA : Fp :=
  0x5f19672fdf76ce51ba69c6076a0f77eaddb3a93be6f89688de17d813620a00022e01fffffffefffe

/-- Modelled from the spec: absolute value of the curve seed, `|x| = 0xd201000000010000`. -/
def BLS_X : Nat := 0xd201000000010000

/-- Modelled from the spec: the inverse of the Montgomery radix `R = 2^384` modulo `p`
("stored value is `a·R mod p`"). -/
def R_INV : Fp :=
  0x14fec701e8fb0ce9ed5e64273c4f538b1797ab1458a88de9343ea97914956dc87fe11274d898fafbf4d38259380b4820

/-- Value of a little-endian array of 64-bit limbs. -/
def limbs_value (limbs : List Nat) : Nat := limbs.foldr (fun l acc => l + 2 ^ 64 * acc) 0

/-- Modelled from the spec: the constructor `Fp(const std::array<uint64_t, 6> &)`, which stores
the given limbs unchanged; they hold `a·R mod p`, so the element constructed is
`limbs · R⁻¹`. -/
def Fp.from_limbs (limbs : List Nat) : Fp := (limbs_value limbs : Fp) * R_INV

/-! ## Points -/

/-- Embeds `class G1Affine` (`include/group/g1_affine.h`): coordinates and the infinity flag. -/
structure G1Affine where
  x : Fp
  y : Fp
  infinity : Bool
deriving DecidableEq

/-- Embeds `class G1Projective` (`include/group/g1_projective.h`). -/
structure G1Projective where
  x : Fp
  y : Fp
  z : Fp
deriving DecidableEq

namespace G1Projective

/-- Embeds `operator==(G1Projective, G1Projective)`, `include/group/g1_projective.h`. -/
def eq (a b : G1Projective) : Bool :=
  let x1 := a.x * b.z
  let x2 := b.x * a.z
  let y1 := a.y * b.z
  let y2 := b.y * a.z
  let a_is_zero := Fp.is_zero a.z
  let b_is_zero := Fp.is_zero b.z
  (a_is_zero && b_is_zero) ||
    (!a_is_zero && !b_is_zero && decide (x1 = x2) && decide (y1 = y2))

/-- Embeds `operator!=(G1Projective, G1Projective)`, `include/group/g1_projective.h`. -/
def ne (a b : G1Projective) : Bool := !(eq a b)

/-- Modelled from the spec: `G1Projective::identity()`, "Z=0 denotes identity". -/
def identity : G1Projective := ⟨Fp.zero, Fp.one, Fp.zero⟩

/-- Modelled from the spec: the conversion `G1Projective(const G1Affine &)`; "Z=0 denotes
identity; otherwise affine point is (X/Z, Y/Z)", so a finite point is lifted with `Z = 1`. -/
def from_affine (x y : Fp) (infinity : Bool) : G1Projective :=
  ⟨x, y, if infinity then Fp.zero else Fp.one⟩

/-- Modelled from the spec: `G1Projective::operator-()`, the inverse of a point. -/
def neg (p : G1Projective) : G1Projective := ⟨p.x, -p.y, p.z⟩

/-- Modelled from the spec: `G1Projective::doubles`, the complete doubling formula listed in
section 4.3. -/
def doubles (p : G1Projective) : G1Projective :=
  let t0 := p.y * p.y
  let z3 := 8 * t0
  let t1 := p.y * p.z
  let t2 := p.z * p.z
  let t2 := 3 * B * t2
  let x3 := t2 * z3
  let y3 := t0 + t2
  let z3 := t1 * z3
  let t1 := 2 * t2
  let t2 := t1 + t2
  let t0 := t0 - t2
  let y3 := t0 * y3
  let y3 := x3 + y3
  let t1 := p.x * p.y
  let x3 := t0 * t1
  let x3 := 2 * x3
  ⟨x3, y3, z3⟩

/-- Modelled from the spec: `G1Projective::add`, "the RCB complete addition formula for a=0"
(Renes-Costello-Batina, algorithm 7, with `b3 = 3·B`). -/
def add (p q : G1Projective) : G1Projective :=
  let t0 := p.x * q.x
  let t1 := p.y * q.y
  let t2 := p.z * q.z
  let t3 := p.x + p.y
  let t4 := q.x + q.y
  let t3 := t3 * t4
  let t4 := t0 + t1
  let t3 := t3 - t4
  let t4 := p.y + p.z
  let x3 := q.y + q.z
  let t4 := t4 * x3
  let x3 := t1 + t2
  let t4 := t4 - x3
  let x3 := p.x + p.z
  let y3 := q.x + q.z
  let x3 := x3 * y3
  let y3 := t0 + t2
  let y3 := x3 - y3
  let x3 := t0 + t0
  let t0 := x3 + t0
  let t2 := 3 * B * t2
  let z3 := t1 + t2
  let t1 := t1 - t2
  let y3 := 3 * B * y3
  let x3 := t4 * y3
  let t2 := t3 * t1
  let x3 := t2 - x3
  let y3 := y3 * t0
  let t1 := t1 * z3
  let y3 := t1 + y3
  let t0 := t0 * t3
  let z3 := z3 * t4
  let z3 := z3 + t0
  ⟨x3, y3, z3⟩

/-- Modelled from the spec: the double-and-add ladder, most significant bit first, "one
doubling per bit and a ... conditional addition selected by the bit", over the low `n`
bits of `k`. -/
def ladder (p : G1Projective) (k : Nat) : Nat → G1Projective
  | 0 => identity
  | n + 1 =>
    let acc := (ladder p (k / 2) n).doubles
    if k % 2 = 1 then acc.add p else acc

/-- Modelled from the spec: `G1Projective::mul_by_x`, "scalar multiplication by
|x| = 0xd201000000010000 using the same ladder; the public result is negated". -/
@[irreducible]
def mul_by_x (p : G1Projective) : G1Projective := (ladder p BLS_X 64).neg

end G1Projective

namespace G1Affine

/-- Embeds `G1Affine::G1Affine()` and `G1Affine::identity()`, `g1_affine.cpp` lines 5 and 19-21. -/
def identity : G1Affine := ⟨Fp.zero, Fp.one, true⟩

/-- Embeds `G1Affine::generator()`, `g1_affine.cpp` lines 23-35. -/
def generator : G1Affine :=
  ⟨Fp.from_limbs
      [0x5cb38790fd530c16, 0x7817fc679976fff5, 0x154f95c7143ba1c1,
       0xf0ae6acdf3d0e747, 0xedce6ecc21dbf440, 0x120177419e0bfb75],
    Fp.from_limbs
      [0xbaac93d50ce72271, 0x8c22631a7918fd8e, 0xdd595f13570725ce,
       0x51ac582950405194, 0x0e1c8c3fad0059c0, 0x0bbc3efc5008a26a],
    false⟩

/-- Embeds `operator==(G1Affine, G1Affine)`, `include/group/g1_affine.h` lines 44-46. -/
def eq (a b : G1Affine) : Bool :=
  (a.infinity && b.infinity) ||
    (!a.infinity && !b.infinity && decide (a.x = b.x) && decide (a.y = b.y))

/-- Embeds `G1Affine::getX`. -/
def getX (p : G1Affine) : Fp := p.x

/-- Embeds `G1Affine::getY`. -/
def getY (p : G1Affine) : Fp := p.y

/-- Embeds `G1Affine::is_identity`. -/
def is_identity (p : G1Affine) : Bool := p.infinity

/-- Embeds `G1Affine::is_on_curve`, `g1_affine.cpp` lines 130-132. -/
def is_on_curve (p : G1Affine) : Bool :=
  decide (Fp.square p.y - Fp.square p.x * p.x = B) || p.infinity

/-- Embeds `G1Affine::endomorphism`, `g1_affine.cpp` lines 171-175. -/
def endomorphism (p : G1Affine) : G1Affine := { p with x := p.x * BETA }

/-- Embeds `G1Affine::is_torsion_free`, `g1_affine.cpp` lines 134-139. -/
def is_torsion_free (p : G1Affine) : Bool :=
  let minus_x_squared_times_p :=
    (G1Projective.from_affine p.x p.y p.infinity).mul_by_x.mul_by_x.neg
  let endomorphism_p := p.endomorphism
  G1Projective.eq minus_x_squared_times_p
    (G1Projective.from_affine endomorphism_p.x endomorphism_p.y endomorphism_p.infinity)

/-- Embeds `G1Affine::to_compressed`, `g1_affine.cpp` lines 141-155. -/
def to_compressed (p : G1Affine) : List Nat :=
  let bytes := if p.infinity then Fp.to_bytes p.x else Fp.to_bytes Fp.zero
  let b0 := bytes.getD 0 0
  let b0 := b0 ||| (1 <<< 7)
  let b0 := b0 ||| (if p.infinity then 0 else 1 <<< 6)
  let b0 := b0 ||| (if !p.infinity && Fp.lexicographically_largest p.y then 0 else 1 <<< 5)
  bytes.set 0 b0

/-- Embeds `G1Affine::to_uncompressed`, `g1_affine.cpp` lines 157-169. -/
def to_uncompressed (p : G1Affine) : List Nat :=
  let x_bytes := Fp.to_bytes (if p.infinity then p.x else Fp.zero)
  let y_bytes := Fp.to_bytes (if p.infinity then p.y else Fp.zero)
  let bytes := x_bytes ++ y_bytes
  bytes.set 0 (bytes.getD 0 0 ||| (if p.infinity then 0 else 1 <<< 6))

/-- Embeds `G1Affine::from_compressed_unchecked`, `g1_affine.cpp` lines 44-73. -/
def from_compressed_unchecked (bytes : List Nat) : Option G1Affine :=
  let compression_flag_set := (bytes.getD 0 0 >>> 7) &&& 1 != 0
  let infinity_flat_set := (bytes.getD 0 0 >>> 6) &&& 1 != 0
  let sort_flat_set := (bytes.getD 0 0 >>> 5) &&& 1 != 0
  let temp := bytes.take 48
  let temp := temp.set 0 (temp.getD 0 0 &&& 0b00011111)
  match Fp.from_bytes temp with
  | none => none
  | some sx =>
    if infinity_flat_set && compression_flag_set && !sort_flat_set && Fp.is_zero sx then
      some identity
    else
      let x_cord := sx
      match Fp.sqrt (Fp.square x_cord * x_cord + B) with
      | none => none
      | some sy =>
        let y_cord :=
          if !(xor (Fp.lexicographically_largest sy) sort_flat_set) then -sy else sy
        if infinity_flat_set || !compression_flag_set then none
        else some ⟨x_cord, y_cord, infinity_flat_set⟩

/-- Embeds `G1Affine::from_compressed`, `g1_affine.cpp` lines 37-42. -/
def from_compressed (bytes : List Nat) : Option G1Affine :=
  match from_compressed_unchecked bytes with
  | none => none
  | some res => if !res.is_torsion_free then none else some res

/-- Embeds `G1Affine::from_uncompressed_unchecked`, `g1_affine.cpp` lines 83-116. -/
def from_uncompressed_unchecked (bytes : List Nat) : Option G1Affine :=
  let compression_flag_set := (bytes.getD 0 0 >>> 7) &&& 1 != 0
  let infinity_flat_set := (bytes.getD 0 0 >>> 6) &&& 1 != 0
  let sort_flat_set := (bytes.getD 0 0 >>> 5) &&& 1 != 0
  let temp := bytes.take 48
  let temp := temp.set 0 (temp.getD 0 0 &&& 0b00011111)
  let sx := Fp.from_bytes temp
  let temp := (bytes.drop 48).take 48
  let sy := Fp.from_bytes temp
  match sx, sy with
  | some vx, some vy =>
    if compression_flag_set || sort_flat_set then none
    else if infinity_flat_set && (!Fp.is_zero vx || !Fp.is_zero vy) then none
    else
      let res : G1Affine := ⟨vx, vy, infinity_flat_set⟩
      if infinity_flat_set then some res else some identity
  | _, _ => none

/-- Embeds `G1Affine::from_uncompressed`, `g1_affine.cpp` lines 75-81. -/
def from_uncompressed (bytes : List Nat) : Option G1Affine :=
  match from_uncompressed_unchecked bytes with
  | none => none
  | some res => if !res.is_on_curve || !res.is_torsion_free then none else some res

/-- Embeds `operator!=(G1Affine, G1Affine)`, `include/group/g1_affine.h` lines 47-49. -/
def ne (a b : G1Affine) : Bool := !(eq a b)

/-- Embeds the constructor `G1Affine::G1Affine(const G1Projective)`, `g1_affine.cpp` lines
7-15: the members are initialised to `(0, 1, true)` and only `x` and `y` are assigned when
`Z` has an inverse. -/
def from_projective (point : G1Projective) : G1Affine :=
  match Fp.invert point.z with
  | none => ⟨Fp.zero, Fp.one, true⟩
  | some z_inv => ⟨point.x * z_inv, point.y * z_inv, true⟩

/-- Embeds `G1Affine::operator-`, `g1_affine.cpp` lines 185-191. -/
def neg (p : G1Affine) : G1Affine :=
  ⟨p.x, if p.infinity then -p.y else Fp.one, p.infinity⟩

end G1Affine

/-! ## Primality certificates

The specification calls `p` a prime and `Fp` a field; the checker below is what the
proof of that fact evaluates. -/

/-- Square-and-multiply modulo `n` over the low `k` bits of `e`. -/
def mod_pow (n a e : Nat) : Nat → Nat
  | 0 => 1 % n
  | k + 1 =>
    let r := mod_pow n a (e / 2) k
    if e % 2 = 1 then r * r % n * a % n else r * r % n

/-- Checks Pocklington's conditions for `N` with base `a` at the prime divisors `qs` of
`N - 1`. -/
def pocklington_check (N a : Nat) (qs : List Nat) : Bool :=
  mod_pow N a (N - 1) 400 == 1 &&
    qs.all fun q =>
      (N - 1) % q == 0 && Nat.gcd (mod_pow N a ((N - 1) / q) 400 + (N - 1)) N == 1

/-! ## Evaluations used below -/

theorem R_INV_spec : R_INV * (2 ^ 384 : Nat) = 1 := by decide!

theorem to_bytes_zero : Fp.to_bytes Fp.zero = List.replicate 48 0 := by decide!

theorem identity_is_torsion_free : G1Affine.identity.is_torsion_free = true := by decide!

theorem generator_is_torsion_free : G1Affine.generator.is_torsion_free = true := by decide!

theorem generator_is_on_curve : G1Affine.generator.is_on_curve = true := by decide!

/-- C6. The code encodes the identity as `0xa0` followed by 47 zero bytes, not as `0xc0`
followed by 47 zero bytes: the infinity bit 6 is left clear and the sort bit 5 is set. -/
theorem to_compressed_identity :
    G1Affine.identity.to_compressed = 0xa0 :: List.replicate 47 0 ∧
    G1Affine.identity.to_compressed ≠ 0xc0 :: List.replicate 47 0 := by
  decide!

/-- C7. The code encodes the identity in uncompressed form as 95 zero bytes followed by
`0x01` (the bytes of `x = 0` and `y = 1`, infinity bit clear), not as `0x40` followed by
95 zero bytes. -/
theorem to_uncompressed_identity :
    G1Affine.identity.to_uncompressed = List.replicate 95 0 ++ [1] ∧
    G1Affine.identity.to_uncompressed ≠ 0x40 :: List.replicate 95 0 := by
  decide!

/-! ## Flag bits and the masked x body -/

theorem flag_eq_testBit (b n : Nat) : ((b >>> n) &&& 1 != 0) = b.testBit n := by
  simp [Nat.testBit, Nat.and_comm]

theorem mask_eq_mod (b : Nat) : b &&& 0b00011111 = b % 32 :=
  Nat.and_pow_two_sub_one_eq_mod b 5

theorem getD_take_zero (bytes : List Nat) : (bytes.take 48).getD 0 0 = bytes.getD 0 0 := by
  cases bytes <;> simp

/-- C5. The checked decoders are the unchecked decoders followed by the checks: a point is
returned by `from_compressed` exactly when `from_compressed_unchecked` returns it and it is
torsion free, and by `from_uncompressed` exactly when `from_uncompressed_unchecked` returns
it and it is on the curve and torsion free; in every other case (the unchecked decoder
returns nothing, or a check fails) the checked decoder returns nothing. -/
theorem checked_decoders_enforce_checks (b : List Nat) :
    (∀ P, G1Affine.from_compressed b = some P ↔
      (G1Affine.from_compressed_unchecked b = some P ∧ P.is_torsion_free = true)) ∧
    (∀ P, G1Affine.from_uncompressed b = some P ↔
      (G1Affine.from_uncompressed_unchecked b = some P ∧ P.is_on_curve = true ∧
        P.is_torsion_free = true)) ∧
    (G1Affine.from_compressed b = none ↔
      (G1Affine.from_compressed_unchecked b = none ∨
        ∃ P, G1Affine.from_compressed_unchecked b = some P ∧ P.is_torsion_free = false)) ∧
    (G1Affine.from_uncompressed b = none ↔
      (G1Affine.from_uncompressed_unchecked b = none ∨
        ∃ P, G1Affine.from_uncompressed_unchecked b = some P ∧
          (P.is_on_curve = false ∨ P.is_torsion_free = false))) := by
  refine ⟨fun P => ?_, fun P => ?_, ?_, ?_⟩
  · unfold G1Affine.from_compressed
    cases h : G1Affine.from_compressed_unchecked b with
    | none => simp
    | some res =>
      cases ht : res.is_torsion_free <;> simp [ht]
      · intro hP; subst hP; simp [ht]
      · intro hP; subst hP; exact ht
  · unfold G1Affine.from_uncompressed
    cases h : G1Affine.from_uncompressed_unchecked b with
    | none => simp
    | some res =>
      cases hc : res.is_on_curve <;> cases ht : res.is_torsion_free <;> simp [hc, ht] <;>
        intro hP <;> subst hP <;> simp [hc, ht]
  · unfold G1Affine.from_compressed
    cases h : G1Affine.from_compressed_unchecked b with
    | none => simp
    | some res => cases ht : res.is_torsion_free <;> simp [ht]
  · unfold G1Affine.from_uncompressed
    cases h : G1Affine.from_uncompressed_unchecked b with
    | none => simp
    | some res =>
      cases hc : res.is_on_curve <;> cases ht : res.is_torsion_free <;> simp [hc, ht]

/-- The uncompressed decoder in terms of the three flag bits of byte 0, the first 48 bytes
with the flag bits cleared, and the last 48 bytes. -/
theorem from_uncompressed_unchecked_eq (bytes : List Nat) :
    G1Affine.from_uncompressed_unchecked bytes =
      match Fp.from_bytes ((bytes.take 48).set 0 (bytes.getD 0 0 % 32)),
          Fp.from_bytes ((bytes.drop 48).take 48) with
      | some vx, some vy =>
        if (bytes.getD 0 0).testBit 7 || (bytes.getD 0 0).testBit 5 then none
        else if (bytes.getD 0 0).testBit 6 && (!Fp.is_zero vx || !Fp.is_zero vy) then none
        else if (bytes.getD 0 0).testBit 6 then some ⟨vx, vy, true⟩
        else some G1Affine.identity
      | _, _ => none := by
  unfold G1Affine.from_uncompressed_unchecked
  simp only [flag_eq_testBit, mask_eq_mod, getD_take_zero]
  generalize Fp.from_bytes ((bytes.take 48).set 0 (bytes.getD 0 0 % 32)) = sx
  generalize Fp.from_bytes ((bytes.drop 48).take 48) = sy
  generalize bytes.getD 0 0 = b0
  rcases sx with _ | vx <;> rcases sy with _ | vy <;> try rfl
  cases b0.testBit 6 <;> simp

/-- C10. `from_uncompressed_unchecked`, and therefore `from_uncompressed`, returns nothing
when the compression bit 7 or the sort bit 5 of byte 0 is set, when either coordinate (the
first 48 bytes with the three flag bits cleared, the last 48 bytes) fails `Fp::from_bytes`,
or when the infinity bit 6 is set and a decoded coordinate is not zero. -/
theorem from_uncompressed_rejects (bytes : List Nat)
    (h : (bytes.getD 0 0).testBit 7 = true ∨ (bytes.getD 0 0).testBit 5 = true ∨
      Fp.from_bytes ((bytes.take 48).set 0 (bytes.getD 0 0 % 32)) = none ∨
      Fp.from_bytes ((bytes.drop 48).take 48) = none ∨
      ((bytes.getD 0 0).testBit 6 = true ∧
        ∃ x y, Fp.from_bytes ((bytes.take 48).set 0 (bytes.getD 0 0 % 32)) = some x ∧
          Fp.from_bytes ((bytes.drop 48).take 48) = some y ∧ (x ≠ 0 ∨ y ≠ 0))) :
    G1Affine.from_uncompressed_unchecked bytes = none ∧
      G1Affine.from_uncompressed bytes = none := by
  have key : G1Affine.from_uncompressed_unchecked bytes = none := by
    rw [from_uncompressed_unchecked_eq]
    revert h
    generalize Fp.from_bytes ((bytes.take 48).set 0 (bytes.getD 0 0 % 32)) = sx
    generalize Fp.from_bytes ((bytes.drop 48).take 48) = sy
    generalize bytes.getD 0 0 = b0
    intro h
    rcases sx with _ | vx <;> rcases sy with _ | vy <;> try rfl
    rcases h with h | h | h | h | ⟨h6, x, y, hx, hy, hxy⟩
    · simp [h]
    · simp [h]
    · simp at h
    · simp at h
    · simp only [Option.some.injEq] at hx hy
      subst hx hy
      rcases hxy with hxy | hxy <;> simp [h6, hxy, Fp.is_zero]
  exact ⟨key, by simp [G1Affine.from_uncompressed, key]⟩

/-- Witness for C10: a 96-byte input with the infinity bit set and `y = 1`. -/
theorem from_uncompressed_rejects_witness :
    ((((0x40 :: List.replicate 94 0 ++ [1]).getD 0 0).testBit 7 = true ∨
      ((0x40 :: List.replicate 94 0 ++ [1]).getD 0 0).testBit 5 = true ∨
      Fp.from_bytes (((0x40 :: List.replicate 94 0 ++ [1]).take 48).set 0
        ((0x40 :: List.replicate 94 0 ++ [1]).getD 0 0 % 32)) = none ∨
      Fp.from_bytes (((0x40 :: List.replicate 94 0 ++ [1]).drop 48).take 48) = none ∨
      (((0x40 :: List.replicate 94 0 ++ [1]).getD 0 0).testBit 6 = true ∧
        ∃ x y, Fp.from_bytes (((0x40 :: List.replicate 94 0 ++ [1]).take 48).set 0
            ((0x40 :: List.replicate 94 0 ++ [1]).getD 0 0 % 32)) = some x ∧
          Fp.from_bytes (((0x40 :: List.replicate 94 0 ++ [1]).drop 48).take 48) = some y ∧
          (x ≠ 0 ∨ y ≠ 0)))) ∧
    (G1Affine.from_uncompressed_unchecked (0x40 :: List.replicate 94 0 ++ [1]) = none ∧
      G1Affine.from_uncompressed (0x40 :: List.replicate 94 0 ++ [1]) = none) :=
  have h : _ := Or.inr (Or.inr (Or.inr (Or.inr
    ⟨by decide, 0, 1, by decide!, by decide!, Or.inr (by decide!)⟩)))
  ⟨h, from_uncompressed_rejects _ h⟩

/-- The compressed decoder in terms of the three flag bits of byte 0 and the 48 bytes with
the flag bits cleared. -/
theorem from_compressed_unchecked_eq (bytes : List Nat) :
    G1Affine.from_compressed_unchecked bytes =
      match Fp.from_bytes ((bytes.take 48).set 0 (bytes.getD 0 0 % 32)) with
      | none => none
      | some sx =>
        if (bytes.getD 0 0).testBit 6 && (bytes.getD 0 0).testBit 7 &&
            !(bytes.getD 0 0).testBit 5 && Fp.is_zero sx then
          some G1Affine.identity
        else
          match Fp.sqrt (Fp.square sx * sx + B) with
          | none => none
          | some sy =>
            if (bytes.getD 0 0).testBit 6 || !(bytes.getD 0 0).testBit 7 then none
            else some ⟨sx,
              if !(xor (Fp.lexicographically_largest sy) ((bytes.getD 0 0).testBit 5))
              then -sy else sy, false⟩ := by
  unfold G1Affine.from_compressed_unchecked
  simp only [flag_eq_testBit, mask_eq_mod, getD_take_zero]
  generalize Fp.from_bytes ((bytes.take 48).set 0 (bytes.getD 0 0 % 32)) = sx
  generalize bytes.getD 0 0 = b0
  rcases sx with _ | vx
  · rfl
  · simp only []
    generalize Fp.sqrt (Fp.square vx * vx + B) = sy
    rcases sy with _ | vy
    · rfl
    · cases h6 : b0.testBit 6 <;> simp

theorem sqrt_eq_none_of_not_square (a : Fp) (h : ∀ y : Fp, y * y ≠ a) : Fp.sqrt a = none := by
  unfold Fp.sqrt
  exact if_neg (h _)

theorem BETA_cube_root : BETA * BETA * BETA = 1 ∧ BETA ≠ 1 := by decide!

theorem sqrt_four : Fp.sqrt (Fp.square 0 * 0 + B) ≠ none := by decide!

/-- C8. Infinity-flag handling of `from_compressed_unchecked`: on an input whose bit 6 of
byte 0 is set it returns the identity `(0, 1, infinity)` when bit 7 is set, bit 5 is clear
and the x body (the 48 bytes with the flag bits cleared) decodes to zero, and nothing in
every other case. It returns the identity on `0xc0` followed by 47 zeros, and
`from_compressed` returns nothing on `0xe0` followed by 47 zeros. -/
theorem from_compressed_infinity_flag :
    (∀ bytes : List Nat, (bytes.getD 0 0).testBit 6 = true →
      G1Affine.from_compressed_unchecked bytes =
        if (bytes.getD 0 0).testBit 7 = true ∧ (bytes.getD 0 0).testBit 5 = false ∧
            Fp.from_bytes ((bytes.take 48).set 0 (bytes.getD 0 0 % 32)) = some 0
        then some ⟨0, 1, true⟩ else none) ∧
    G1Affine.from_compressed_unchecked (0xc0 :: List.replicate 47 0) = some ⟨0, 1, true⟩ ∧
    G1Affine.from_compressed (0xe0 :: List.replicate 47 0) = none := by
  refine ⟨fun bytes h6 => ?_, by decide!, by decide!⟩
  rw [from_compressed_unchecked_eq]
  generalize Fp.from_bytes ((bytes.take 48).set 0 (bytes.getD 0 0 % 32)) = sx
  revert h6
  generalize bytes.getD 0 0 = b0
  intro h6
  rcases sx with _ | vx
  · simp
  · simp only [h6, Bool.true_and, Bool.true_or, if_true, Option.some.injEq]
    generalize Fp.sqrt (Fp.square vx * vx + B) = sy
    have hz : Fp.is_zero vx = decide (vx = 0) := rfl
    rw [hz]
    cases h7 : b0.testBit 7 <;> cases h5 : b0.testBit 5 <;> by_cases hx : vx = 0 <;>
      rcases sy with _ | vy <;>
      simp [hx, G1Affine.identity, Fp.zero, Fp.one]

/-- C9. `from_compressed_unchecked` and `from_compressed` return nothing on an input (a) whose
x body (the 48 bytes with the three flag bits cleared) fails `Fp::from_bytes`, or (b) whose
compression bit 7 is clear, or (c) whose x body decodes to an `x` for which `x³ + 4` has no
square root (`Fp::sqrt` returns nothing, or no field element squares to it). The identity
encoding has `x = 0` and `4` has a square root, so case (c) never concerns it. -/
theorem from_compressed_rejects (bytes : List Nat)
    (h : Fp.from_bytes ((bytes.take 48).set 0 (bytes.getD 0 0 % 32)) = none ∨
      (bytes.getD 0 0).testBit 7 = false ∨
      ∃ x, Fp.from_bytes ((bytes.take 48).set 0 (bytes.getD 0 0 % 32)) = some x ∧
        (Fp.sqrt (x * x * x + 4) = none ∨ ∀ y : Fp, y * y ≠ x * x * x + 4)) :
    G1Affine.from_compressed_unchecked bytes = none ∧
      G1Affine.from_compressed bytes = none := by
  have key : G1Affine.from_compressed_unchecked bytes = none := by
    rw [from_compressed_unchecked_eq]
    revert h
    generalize Fp.from_bytes ((bytes.take 48).set 0 (bytes.getD 0 0 % 32)) = sx
    generalize bytes.getD 0 0 = b0
    intro h
    rcases sx with _ | vx
    · rfl
    simp only []
    rcases h with h | h | ⟨x, hx, hs⟩
    · exact Option.noConfusion h
    · generalize Fp.sqrt (Fp.square vx * vx + B) = sy
      rcases sy with _ | vy <;> simp [h]
    · cases hx
      have hs2 : Fp.sqrt (Fp.square vx * vx + B) = none := by
        rcases hs with hs | hs
        · exact hs
        · exact sqrt_eq_none_of_not_square _ hs
      have hz : Fp.is_zero vx = false := by
        cases hz : Fp.is_zero vx
        · rfl
        · rw [Fp.is_zero, decide_eq_true_eq] at hz
          subst hz
          exact absurd hs2 sqrt_four
      simp [hz, hs2]
  refine ⟨key, ?_⟩
  unfold G1Affine.from_compressed
  rw [key]

/-- Witness for C9: `0x80` then 46 zeros then `0x01` encodes `x = 1`, and `5` is not a
square. -/
theorem from_compressed_rejects_witness :
    (Fp.from_bytes (((0x80 :: List.replicate 46 0 ++ [1]).take 48).set 0
        ((0x80 :: List.replicate 46 0 ++ [1]).getD 0 0 % 32)) = none ∨
      ((0x80 :: List.replicate 46 0 ++ [1]).getD 0 0).testBit 7 = false ∨
      ∃ x, Fp.from_bytes (((0x80 :: List.replicate 46 0 ++ [1]).take 48).set 0
          ((0x80 :: List.replicate 46 0 ++ [1]).getD 0 0 % 32)) = some x ∧
        (Fp.sqrt (x * x * x + 4) = none ∨ ∀ y : Fp, y * y ≠ x * x * x + 4)) ∧
    (G1Affine.from_compressed_unchecked (0x80 :: List.replicate 46 0 ++ [1]) = none ∧
      G1Affine.from_compressed (0x80 :: List.replicate 46 0 ++ [1]) = none) :=
  have h : _ := Or.inr (Or.inr ⟨1, by decide!, Or.inl (by decide!)⟩)
  ⟨h, from_compressed_rejects _ h⟩

/-! ## Inputs with clear flag bits -/

theorem clear_flags_mod (b : Nat) (hb : b < 256) (h7 : b.testBit 7 = false)
    (h6 : b.testBit 6 = false) (h5 : b.testBit 5 = false) : b % 32 = b := by
  have key : ∀ c : Fin 256, c.val.testBit 7 = false → c.val.testBit 6 = false →
      c.val.testBit 5 = false → c.val % 32 = c.val := by decide!
  exact key ⟨b, hb⟩ h7 h6 h5

theorem getD_zero_lt (bytes : List Nat) (hbyte : ∀ b ∈ bytes, b < 256) :
    bytes.getD 0 0 < 256 := by
  cases bytes with
  | nil => simp
  | cons b bs => simpa using hbyte b (by simp)

theorem set_zero_getD (l : List Nat) : l.set 0 (l.getD 0 0) = l := by
  cases l <;> simp

/-- On an input with the three flag bits clear whose halves decode, the uncompressed decoder
returns the identity whatever the coordinates are. -/
theorem from_uncompressed_unchecked_clear_flags (bytes : List Nat) (x y : Fp)
    (hlen : bytes.length = 96) (hbyte : ∀ b ∈ bytes, b < 256)
    (h7 : (bytes.getD 0 0).testBit 7 = false) (h6 : (bytes.getD 0 0).testBit 6 = false)
    (h5 : (bytes.getD 0 0).testBit 5 = false)
    (hx : Fp.from_bytes (bytes.take 48) = some x)
    (hy : Fp.from_bytes (bytes.drop 48) = some y) :
    G1Affine.from_uncompressed_unchecked bytes = some G1Affine.identity := by
  have hb0 := clear_flags_mod _ (getD_zero_lt bytes hbyte) h7 h6 h5
  have hxb : (bytes.take 48).set 0 (bytes.getD 0 0 % 32) = bytes.take 48 := by
    rw [hb0, ← getD_take_zero, set_zero_getD]
  have hyb : (bytes.drop 48).take 48 = bytes.drop 48 := by
    apply List.take_of_length_le
    simp [hlen]
  rw [from_uncompressed_unchecked_eq, hxb, hyb, hx, hy]
  simp only [h7, h6, h5]
  rfl

/-- C3. On a 96-byte input whose three flag bits are clear and whose halves decode to field
elements `x` and `y`, the code does not return the point `(x, y)`: it returns the identity,
with `getX() = 0`, `getY() = 1` and `is_identity() = true`, for every `x` and `y`. -/
theorem from_uncompressed_unchecked_returns_identity (bytes : List Nat) (x y : Fp)
    (hlen : bytes.length = 96) (hbyte : ∀ b ∈ bytes, b < 256)
    (h7 : (bytes.getD 0 0).testBit 7 = false) (h6 : (bytes.getD 0 0).testBit 6 = false)
    (h5 : (bytes.getD 0 0).testBit 5 = false)
    (hx : Fp.from_bytes (bytes.take 48) = some x)
    (hy : Fp.from_bytes (bytes.drop 48) = some y) :
    ∃ P, G1Affine.from_uncompressed_unchecked bytes = some P ∧
      P.getX = 0 ∧ P.getY = 1 ∧ P.is_identity = true :=
  ⟨G1Affine.identity,
    from_uncompressed_unchecked_clear_flags bytes x y hlen hbyte h7 h6 h5 hx hy, rfl, rfl, rfl⟩

/-- Witness for C3: 95 zero bytes followed by `0x02` hold `x = 0`, `y = 2`, a point of
the curve; the decoder returns the identity instead of `(0, 2)`. -/
theorem from_uncompressed_unchecked_returns_identity_witness :
    ((List.replicate 95 0 ++ [2]).length = 96 ∧
      (∀ b ∈ List.replicate 95 0 ++ [2], b < 256) ∧
      ((List.replicate 95 0 ++ [2]).getD 0 0).testBit 7 = false ∧
      ((List.replicate 95 0 ++ [2]).getD 0 0).testBit 6 = false ∧
      ((List.replicate 95 0 ++ [2]).getD 0 0).testBit 5 = false ∧
      Fp.from_bytes ((List.replicate 95 0 ++ [2]).take 48) = some 0 ∧
      Fp.from_bytes ((List.replicate 95 0 ++ [2]).drop 48) = some 2) ∧
    ∃ P, G1Affine.from_uncompressed_unchecked (List.replicate 95 0 ++ [2]) = some P ∧
      P.getX = 0 ∧ P.getY = 1 ∧ P.is_identity = true :=
  ⟨⟨by decide, by decide, by decide, by decide, by decide, by decide!, by decide!⟩,
    from_uncompressed_unchecked_returns_identity (List.replicate 95 0 ++ [2]) 0 2
      (by decide) (by decide) (by decide) (by decide) (by decide) (by decide!) (by decide!)⟩

/-- C4. On a 96-byte input whose three flag bits are clear and whose halves decode to field
elements `x` and `y`, `from_uncompressed` returns a value, the identity, whether or not
`y² = x³ + 4`: the curve check is applied to the identity, which passes it, and never to
`(x, y)`. -/
theorem from_uncompressed_accepts_off_curve (bytes : List Nat) (x y : Fp)
    (hlen : bytes.length = 96) (hbyte : ∀ b ∈ bytes, b < 256)
    (h7 : (bytes.getD 0 0).testBit 7 = false) (h6 : (bytes.getD 0 0).testBit 6 = false)
    (h5 : (bytes.getD 0 0).testBit 5 = false)
    (hx : Fp.from_bytes (bytes.take 48) = some x)
    (hy : Fp.from_bytes (bytes.drop 48) = some y) :
    G1Affine.from_uncompressed bytes = some G1Affine.identity := by
  unfold G1Affine.from_uncompressed
  rw [from_uncompressed_unchecked_clear_flags bytes x y hlen hbyte h7 h6 h5 hx hy]
  have hc : G1Affine.identity.is_on_curve = true := rfl
  simp [hc, identity_is_torsion_free]

/-- Witness for C4: 96 zero bytes hold `x = 0`, `y = 0`, which is not on the curve
(`0 ≠ 0 + 4`), and `from_uncompressed` returns the identity. -/
theorem from_uncompressed_accepts_off_curve_witness :
    ((List.replicate 96 0).length = 96 ∧
      (∀ b ∈ List.replicate 96 0, b < 256) ∧
      ((List.replicate 96 0).getD 0 0).testBit 7 = false ∧
      ((List.replicate 96 0).getD 0 0).testBit 6 = false ∧
      ((List.replicate 96 0).getD 0 0).testBit 5 = false ∧
      Fp.from_bytes ((List.replicate 96 0).take 48) = some 0 ∧
      Fp.from_bytes ((List.replicate 96 0).drop 48) = some 0 ∧
      (0 : Fp) * 0 ≠ 0 * 0 * 0 + 4) ∧
    G1Affine.from_uncompressed (List.replicate 96 0) = some G1Affine.identity :=
  ⟨⟨by decide, by decide, by decide, by decide, by decide, by decide!, by decide!, by decide!⟩,
    from_uncompressed_accepts_off_curve (List.replicate 96 0) 0 0
      (by decide) (by decide) (by decide) (by decide) (by decide) (by decide!) (by decide!)⟩

/-! ## Big-endian bytes of a field element -/

theorem be_bytes_length (n v : Nat) : (Fp.be_bytes n v).length = n := by
  induction n generalizing v with
  | zero => rfl
  | succ n ih => simp [Fp.be_bytes, ih]

theorem be_bytes_lt (n v : Nat) : ∀ b ∈ Fp.be_bytes n v, b < 256 := by
  induction n generalizing v with
  | zero => simp [Fp.be_bytes]
  | succ n ih =>
    intro b hb
    simp only [Fp.be_bytes, List.mem_append, List.mem_singleton] at hb
    rcases hb with hb | hb
    · exact ih _ b hb
    · omega

theorem be_value_append (l : List Nat) (b : Nat) :
    Fp.be_value (l ++ [b]) = Fp.be_value l * 256 + b := by
  simp [Fp.be_value]

theorem be_value_be_bytes (n v : Nat) : Fp.be_value (Fp.be_bytes n v) = v % 256 ^ n := by
  induction n generalizing v with
  | zero => simp [Fp.be_bytes, Fp.be_value, Nat.mod_one]
  | succ n ih =>
    rw [Fp.be_bytes, be_value_append, ih, pow_succ, Nat.mul_comm (256 ^ n) 256, Nat.mod_mul]
    ring

theorem be_bytes_head (n v : Nat) :
    (Fp.be_bytes (n + 1) v).getD 0 0 = v / 256 ^ n % 256 := by
  induction n generalizing v with
  | zero => simp [Fp.be_bytes]
  | succ n ih =>
    rw [Fp.be_bytes]
    have hlen : 0 < (Fp.be_bytes (n + 1) (v / 256)).length := by
      rw [be_bytes_length]; omega
    rw [List.getD_append _ _ _ _ hlen, ih, Nat.div_div_eq_div_mul, pow_succ,
      Nat.mul_comm 256]

theorem val_lt_modulus (a : Fp) : a.val < MODULUS := ZMod.val_lt a

theorem from_bytes_to_bytes (a : Fp) : Fp.from_bytes (Fp.to_bytes a) = some a := by
  have hlt := val_lt_modulus a
  have hp : MODULUS < 256 ^ 48 := by decide
  unfold Fp.from_bytes Fp.to_bytes
  rw [be_value_be_bytes, Nat.mod_eq_of_lt (lt_trans hlt hp), if_pos hlt,
    ZMod.natCast_zmod_val]

theorem to_bytes_head_lt (a : Fp) : (Fp.to_bytes a).getD 0 0 < 32 := by
  have hlt := val_lt_modulus a
  have hp : MODULUS < 32 * 256 ^ 47 := by decide
  unfold Fp.to_bytes
  rw [be_bytes_head]
  have h1 : a.val / 256 ^ 47 < 32 :=
    (Nat.div_lt_iff_lt_mul (by positivity)).2 (lt_trans hlt hp)
  exact lt_of_le_of_lt (Nat.mod_le _ _) h1

theorem to_bytes_length (a : Fp) : (Fp.to_bytes a).length = 48 := by
  unfold Fp.to_bytes
  exact be_bytes_length 48 a.val

theorem to_bytes_lt (a : Fp) : ∀ b ∈ Fp.to_bytes a, b < 256 := by
  unfold Fp.to_bytes
  exact be_bytes_lt 48 a.val

/-! ## What the encoders emit -/

theorem to_compressed_finite (P : G1Affine) (h : P.infinity = false) :
    P.to_compressed =
      (if Fp.lexicographically_largest P.y then 0xc0 else 0xe0) :: List.replicate 47 0 := by
  unfold G1Affine.to_compressed
  simp only [h, Bool.false_eq_true, if_false, to_bytes_zero, Bool.not_false, Bool.true_and]
  cases Fp.lexicographically_largest P.y <;> decide

theorem to_uncompressed_finite (P : G1Affine) (h : P.infinity = false) :
    P.to_uncompressed = 0x40 :: List.replicate 95 0 := by
  unfold G1Affine.to_uncompressed
  simp only [h, Bool.false_eq_true, if_false, to_bytes_zero]
  decide

theorem to_uncompressed_infinity (P : G1Affine) (h : P.infinity = true) :
    P.to_uncompressed = Fp.to_bytes P.x ++ Fp.to_bytes P.y := by
  unfold G1Affine.to_uncompressed
  simp only [h, if_true, Nat.or_zero, set_zero_getD]


theorem getD_set_zero (l : List Nat) (v : Nat) (h : 0 < l.length) :
    (l.set 0 v).getD 0 0 = v := by
  cases l with
  | nil => simp at h
  | cons a l => simp

theorem low_byte_flags (c : Nat) (hc : c < 32) :
    c.testBit 7 = false ∧ c.testBit 6 = false ∧ c.testBit 5 = false ∧
      (c ||| 1 <<< 7 ||| 0 ||| 1 <<< 5).testBit 6 = false := by
  have key : ∀ d : Fin 32, d.val.testBit 7 = false ∧ d.val.testBit 6 = false ∧
      d.val.testBit 5 = false ∧ (d.val ||| 1 <<< 7 ||| 0 ||| 1 <<< 5).testBit 6 = false := by
    decide!
  exact key ⟨c, hc⟩

theorem to_compressed_infinity_bit6 (P : G1Affine) (h : P.infinity = true) :
    (P.to_compressed.getD 0 0).testBit 6 = false := by
  unfold G1Affine.to_compressed
  simp only [h, if_true, Bool.not_true, Bool.false_and, Bool.false_eq_true, if_false]
  rw [getD_set_zero _ _ (by rw [to_bytes_length]; decide)]
  have hlt := to_bytes_head_lt P.x
  revert hlt
  generalize (Fp.to_bytes P.x).getD 0 0 = c
  intro hlt
  exact (low_byte_flags c hlt).2.2.2

theorem from_compressed_unchecked_finite (bytes : List Nat) (Q : G1Affine)
    (h6 : (bytes.getD 0 0).testBit 6 = false)
    (h : G1Affine.from_compressed_unchecked bytes = some Q) : Q.infinity = false := by
  rw [from_compressed_unchecked_eq] at h
  revert h
  generalize Fp.from_bytes ((bytes.take 48).set 0 (bytes.getD 0 0 % 32)) = sx
  rw [h6]
  rcases sx with _ | vx
  · intro h; exact Option.noConfusion h
  · simp only [Bool.false_and, Bool.false_eq_true, if_false]
    generalize Fp.sqrt (Fp.square vx * vx + B) = sy
    rcases sy with _ | vy
    · intro h; exact Option.noConfusion h
    · simp only []
      split
      · intro h; exact Option.noConfusion h
      · intro h
        simp only [Option.some.injEq] at h
        rw [← h]

theorem from_compressed_some (bytes : List Nat) (Q : G1Affine)
    (h : G1Affine.from_compressed bytes = some Q) :
    G1Affine.from_compressed_unchecked bytes = some Q := by
  unfold G1Affine.from_compressed at h
  cases hu : G1Affine.from_compressed_unchecked bytes with
  | none => rw [hu] at h; exact Option.noConfusion h
  | some res =>
    rw [hu] at h
    cases ht : res.is_torsion_free <;> simp [ht] at h
    rw [h]

theorem from_compressed_c0 :
    G1Affine.from_compressed (0xc0 :: List.replicate 47 0) = some G1Affine.identity := by
  decide!

theorem from_compressed_e0 :
    G1Affine.from_compressed (0xe0 :: List.replicate 47 0) = none := by
  decide!

/-- C1. The compressed round trip fails at every point. The identity, which is on the curve
and torsion free, is encoded as `0xa0, 0, …, 0` and that string is rejected. A point that is
not the identity is encoded without its coordinates, as `0xc0, 0, …, 0` or `0xe0, 0, …, 0`
(the generator as the latter), which decodes to the identity or to nothing. For no point `P` does
`from_compressed(P.to_compressed())` return a value equal to `P` under `operator==`. -/
theorem compressed_round_trip_fails :
    (G1Affine.identity.is_on_curve = true ∧ G1Affine.identity.is_torsion_free = true ∧
      G1Affine.from_compressed G1Affine.identity.to_compressed = none) ∧
    (G1Affine.generator.to_compressed = 0xe0 :: List.replicate 47 0 ∧
      G1Affine.from_compressed G1Affine.generator.to_compressed = none) ∧
    (∀ P : G1Affine, P.infinity = false →
      G1Affine.from_compressed P.to_compressed =
        if Fp.lexicographically_largest P.y then some G1Affine.identity else none) ∧
    (∀ P Q : G1Affine, G1Affine.from_compressed P.to_compressed = some Q →
      G1Affine.eq Q P = false) := by
  have finite : ∀ P : G1Affine, P.infinity = false →
      G1Affine.from_compressed P.to_compressed =
        if Fp.lexicographically_largest P.y then some G1Affine.identity else none := by
    intro P h
    rw [to_compressed_finite P h]
    cases Fp.lexicographically_largest P.y
    · exact from_compressed_e0
    · exact from_compressed_c0
  refine ⟨⟨rfl, identity_is_torsion_free, by decide!⟩, ⟨by decide!, by decide!⟩, finite,
    fun P Q h => ?_⟩
  cases hP : P.infinity
  · rw [finite P hP] at h
    cases hl : Fp.lexicographically_largest P.y
    · rw [hl] at h; exact Option.noConfusion h
    · rw [hl] at h
      simp only [if_true, Option.some.injEq] at h
      rw [← h]
      simp [G1Affine.eq, G1Affine.identity, hP]
  · have hQ := from_compressed_unchecked_finite _ Q (to_compressed_infinity_bit6 P hP)
      (from_compressed_some _ Q h)
    simp [G1Affine.eq, hP, hQ]

/-- C2. The uncompressed round trip fails at every point other than the identity: such a
point is encoded without its coordinates, as `0x40, 0, …, 0`, which decodes to
`(0, 0, infinity)`, a value that `operator==` tells apart from the point. The generator is
such a point, on the curve and torsion free. A point with the infinity flag set is encoded
with its coordinates and the flag clear, and decodes to the identity. -/
theorem uncompressed_round_trip_fails :
    (G1Affine.generator.is_on_curve = true ∧ G1Affine.generator.is_torsion_free = true ∧
      G1Affine.generator.is_identity = false ∧
      G1Affine.from_uncompressed G1Affine.generator.to_uncompressed = some ⟨0, 0, true⟩) ∧
    (∀ P : G1Affine, P.infinity = false →
      G1Affine.from_uncompressed P.to_uncompressed = some ⟨0, 0, true⟩ ∧
        G1Affine.eq ⟨0, 0, true⟩ P = false) ∧
    (∀ P : G1Affine, P.infinity = true →
      G1Affine.from_uncompressed P.to_uncompressed = some G1Affine.identity ∧
        G1Affine.eq G1Affine.identity P = true) := by
  have finite : ∀ P : G1Affine, P.infinity = false →
      G1Affine.from_uncompressed P.to_uncompressed = some ⟨0, 0, true⟩ := by
    intro P h
    rw [to_uncompressed_finite P h]
    decide!
  refine ⟨⟨generator_is_on_curve, generator_is_torsion_free, rfl, finite _ rfl⟩,
    fun P h => ⟨finite P h, by simp [G1Affine.eq, h]⟩, fun P h => ⟨?_, ?_⟩⟩
  · rw [to_uncompressed_infinity P h]
    have hb : ∀ b ∈ Fp.to_bytes P.x ++ Fp.to_bytes P.y, b < 256 := by
      intro b hb
      rcases List.mem_append.1 hb with hb | hb
      · exact to_bytes_lt _ b hb
      · exact to_bytes_lt _ b hb
    have h0 : (Fp.to_bytes P.x ++ Fp.to_bytes P.y).getD 0 0 = (Fp.to_bytes P.x).getD 0 0 :=
      List.getD_append _ _ _ _ (by rw [to_bytes_length]; decide)
    obtain ⟨h7, h6, h5, _⟩ := low_byte_flags _ (to_bytes_head_lt P.x)
    rw [← h0] at h7 h6 h5
    have hx : Fp.from_bytes ((Fp.to_bytes P.x ++ Fp.to_bytes P.y).take 48) = some P.x := by
      rw [List.take_left' (to_bytes_length P.x), from_bytes_to_bytes]
    have hy : Fp.from_bytes ((Fp.to_bytes P.x ++ Fp.to_bytes P.y).drop 48) = some P.y := by
      rw [List.drop_left' (to_bytes_length P.x), from_bytes_to_bytes]
    unfold G1Affine.from_uncompressed
    rw [from_uncompressed_unchecked_clear_flags _ P.x P.y
      (by rw [List.length_append, to_bytes_length, to_bytes_length])
      hb h7 h6 h5 hx hy]
    have hc : G1Affine.identity.is_on_curve = true := rfl
    simp [hc, identity_is_torsion_free]
  · simp [G1Affine.eq, G1Affine.identity, h]

/-! ## The curve equation, equality, endomorphism and negation -/

/-- C15. `is_on_curve` holds exactly when the infinity flag is set or `y² = x³ + B` with
`B = 4`. -/
theorem is_on_curve_iff (P : G1Affine) :
    P.is_on_curve = true ↔ (P.infinity = true ∨ P.y * P.y = P.x * P.x * P.x + 4) := by
  unfold G1Affine.is_on_curve Fp.square B
  rw [Bool.or_eq_true, decide_eq_true_eq, sub_eq_iff_eq_add, add_comm (4 : Fp)]
  exact Or.comm

/-- C17. Affine `operator==` holds exactly when both infinity flags are set, whatever the
coordinates, or neither is set and the coordinates agree; it is reflexive, symmetric and
transitive, and `operator!=` is its negation. -/
theorem affine_eq_iff :
    (∀ a b : G1Affine, G1Affine.eq a b = true ↔
      ((a.infinity = true ∧ b.infinity = true) ∨
        (a.infinity = false ∧ b.infinity = false ∧ a.x = b.x ∧ a.y = b.y))) ∧
    (∀ a : G1Affine, G1Affine.eq a a = true) ∧
    (∀ a b : G1Affine, G1Affine.eq a b = true → G1Affine.eq b a = true) ∧
    (∀ a b c : G1Affine, G1Affine.eq a b = true → G1Affine.eq b c = true →
      G1Affine.eq a c = true) ∧
    (∀ a b : G1Affine, G1Affine.ne a b = !G1Affine.eq a b) := by
  have key : ∀ a b : G1Affine, G1Affine.eq a b = true ↔
      ((a.infinity = true ∧ b.infinity = true) ∨
        (a.infinity = false ∧ b.infinity = false ∧ a.x = b.x ∧ a.y = b.y)) := by
    intro a b
    unfold G1Affine.eq
    cases a.infinity <;> cases b.infinity <;> simp
  refine ⟨key, fun a => ?_, fun a b h => ?_, fun a b c hab hbc => ?_, fun a b => rfl⟩
  · rw [key]
    cases h : a.infinity
    · exact Or.inr ⟨rfl, rfl, rfl, rfl⟩
    · exact Or.inl ⟨rfl, rfl⟩
  · rw [key] at h ⊢
    rcases h with ⟨h1, h2⟩ | ⟨h1, h2, h3, h4⟩
    · exact Or.inl ⟨h2, h1⟩
    · exact Or.inr ⟨h2, h1, h3.symm, h4.symm⟩
  · rw [key] at hab hbc ⊢
    rcases hab with ⟨h1, h2⟩ | ⟨h1, h2, h3, h4⟩
    · rcases hbc with ⟨g1, g2⟩ | ⟨g1, g2, g3, g4⟩
      · exact Or.inl ⟨h1, g2⟩
      · rw [h2] at g1; exact absurd g1 (by decide)
    · rcases hbc with ⟨g1, g2⟩ | ⟨g1, g2, g3, g4⟩
      · rw [h2] at g1; exact absurd g1 (by decide)
      · exact Or.inr ⟨h1, g2, h3.trans g3, h4.trans g4⟩

/-- C19. The endomorphism maps `(x, y, infinity)` to `(BETA·x, y, infinity)`; since
`BETA³ = 1` it leaves `is_on_curve` unchanged, and it leaves `is_identity` unchanged. -/
theorem endomorphism_preserves_curve (P : G1Affine) :
    P.endomorphism = ⟨BETA * P.x, P.y, P.infinity⟩ ∧
    P.endomorphism.is_on_curve = P.is_on_curve ∧
    P.endomorphism.is_identity = P.is_identity := by
  have hb : BETA * BETA * BETA = 1 := BETA_cube_root.1
  have hx : P.x * BETA * (P.x * BETA) * (P.x * BETA) = P.x * P.x * P.x := by
    calc P.x * BETA * (P.x * BETA) * (P.x * BETA)
        = P.x * P.x * P.x * (BETA * BETA * BETA) := by ring
      _ = P.x * P.x * P.x := by rw [hb, mul_one]
  refine ⟨?_, ?_, rfl⟩
  · unfold G1Affine.endomorphism
    rw [mul_comm]
  · unfold G1Affine.is_on_curve G1Affine.endomorphism Fp.square
    simp only [hx]

/-- C20. The code negates `y` only when the infinity flag is set; for a point that is not the
identity it returns `(x, 1, false)`. Negation keeps `is_identity`, and the claim holds for
points with the infinity flag set, but the generator is on the curve while its negation is
not, and negating the generator twice does not give a point equal to it. -/
theorem affine_neg_replaces_y :
    (∀ P : G1Affine, P.infinity = false → P.neg = ⟨P.x, 1, false⟩) ∧
    (∀ P : G1Affine, P.neg.is_identity = P.is_identity) ∧
    (∀ P : G1Affine, P.infinity = true →
      P.neg.is_on_curve = true ∧ G1Affine.eq P.neg.neg P = true) ∧
    (G1Affine.generator.is_on_curve = true ∧
      G1Affine.generator.neg.is_on_curve = false ∧
      G1Affine.eq G1Affine.generator.neg.neg G1Affine.generator = false) := by
  refine ⟨fun P h => ?_, fun P => rfl, fun P h => ⟨?_, ?_⟩,
    ⟨generator_is_on_curve, by decide!, by decide!⟩⟩
  · unfold G1Affine.neg
    rw [h]
    rfl
  · unfold G1Affine.is_on_curve G1Affine.neg
    simp [h]
  · unfold G1Affine.eq G1Affine.neg
    simp [h]

/-! ## Points returned by the compressed decoder -/

theorem sqrt_sound (a c : Fp) (h : Fp.sqrt a = some c) : c * c = a := by
  unfold Fp.sqrt at h
  by_cases hc : Fp.pow a ((MODULUS + 1) / 4) * Fp.pow a ((MODULUS + 1) / 4) = a
  · rw [if_pos hc] at h
    simp only [Option.some.injEq] at h
    rw [← h]
    exact hc
  · rw [if_neg hc] at h
    exact Option.noConfusion h

/-- The shape of every value returned by the compressed decoder: the identity, or a point
with the infinity flag clear whose `y` is a square root found by `Fp::sqrt`, possibly
negated. -/
theorem from_compressed_unchecked_cases (bytes : List Nat) (P : G1Affine)
    (h : G1Affine.from_compressed_unchecked bytes = some P) :
    P = G1Affine.identity ∨
      ∃ sy, Fp.sqrt (Fp.square P.x * P.x + B) = some sy ∧ P.infinity = false ∧
        P.y = if !(xor (Fp.lexicographically_largest sy) ((bytes.getD 0 0).testBit 5))
          then -sy else sy := by
  rw [from_compressed_unchecked_eq] at h
  revert h
  generalize Fp.from_bytes ((bytes.take 48).set 0 (bytes.getD 0 0 % 32)) = sx
  generalize bytes.getD 0 0 = b0
  rcases sx with _ | vx
  · intro h; exact Option.noConfusion h
  · simp only []
    split
    · intro h
      simp only [Option.some.injEq] at h
      exact Or.inl h.symm
    · generalize hs : Fp.sqrt (Fp.square vx * vx + B) = sy
      rcases sy with _ | vy
      · intro h; exact Option.noConfusion h
      · simp only []
        split
        · intro h; exact Option.noConfusion h
        · intro h
          simp only [Option.some.injEq] at h
          subst h
          exact Or.inr ⟨vy, hs, rfl, rfl⟩

/-- C18. Every point returned by `from_compressed_unchecked` satisfies `is_on_curve`: it is
the identity, or its `y` is plus or minus a value of `Fp::sqrt`, whose square is
`x³ + 4`. -/
theorem from_compressed_unchecked_on_curve (bytes : List Nat) (P : G1Affine)
    (h : G1Affine.from_compressed_unchecked bytes = some P) : P.is_on_curve = true := by
  rcases from_compressed_unchecked_cases bytes P h with hP | ⟨sy, hs, _, hy⟩
  · rw [hP]; rfl
  · have hsq := sqrt_sound _ _ hs
    have hyy : P.y * P.y = sy * sy := by
      rw [hy]
      split
      · ring
      · rfl
    unfold G1Affine.is_on_curve
    rw [Bool.or_eq_true, decide_eq_true_eq]
    left
    show P.y * P.y - Fp.square P.x * P.x = B
    rw [hyy, hsq]
    ring

/-- Witness for C18: `0x80` followed by 47 zeros decodes to `(0, -2)`, a point of the
curve. -/
theorem from_compressed_unchecked_on_curve_witness :
    G1Affine.from_compressed_unchecked (0x80 :: List.replicate 47 0) = some ⟨0, -2, false⟩ ∧
      G1Affine.is_on_curve ⟨0, -2, false⟩ = true :=
  have h : G1Affine.from_compressed_unchecked (0x80 :: List.replicate 47 0) =
      some ⟨0, -2, false⟩ := by decide!
  ⟨h, from_compressed_unchecked_on_curve _ _ h⟩

/-! ## The sort flag -/

theorem lex_zero : Fp.lexicographically_largest 0 = false := by decide!

theorem lex_neg (a : Fp) (ha : a ≠ 0) :
    Fp.lexicographically_largest (-a) = !Fp.lexicographically_largest a := by
  have hlt := val_lt_modulus a
  have hpos : 0 < a.val := (ZMod.val_pos).2 ha
  have hodd : MODULUS % 2 = 1 := by decide
  unfold Fp.lexicographically_largest
  rw [ZMod.neg_val, if_neg ha, ← decide_not]
  apply decide_eq_decide.2
  revert hlt hpos
  generalize a.val = v
  revert hodd
  generalize MODULUS = m
  intro hodd hlt hpos
  omega

/-- C11. The code selects the root whose `lexicographically_largest` bit is the opposite of
the sort flag: on every input on which `from_compressed_unchecked` returns a point `P` that
is not the identity, `P.getY().lexicographically_largest()` is the negation of bit 5 of
byte 0 when `y ≠ 0`, and false when `y = 0`. -/
theorem from_compressed_unchecked_sort_flag (bytes : List Nat) (P : G1Affine)
    (h : G1Affine.from_compressed_unchecked bytes = some P)
    (hP : P.is_identity = false) :
    Fp.lexicographically_largest P.getY =
      (decide (P.getY ≠ 0) && !(bytes.getD 0 0).testBit 5) := by
  rcases from_compressed_unchecked_cases bytes P h with hI | ⟨sy, _, _, hy⟩
  · rw [hI] at hP
    exact absurd hP (by decide)
  · show Fp.lexicographically_largest P.y = (decide (P.y ≠ 0) && !(bytes.getD 0 0).testBit 5)
    rw [hy]
    generalize (bytes.getD 0 0).testBit 5 = b5
    by_cases h0 : sy = 0
    · subst h0
      cases b5 <;> simp [lex_zero]
    · have hn : -sy ≠ 0 := neg_ne_zero.2 h0
      have hneg := lex_neg sy h0
      cases hl : Fp.lexicographically_largest sy <;> cases b5 <;>
        simp [hl, h0, hn, hneg]

/-- Witness for C11: `0x80` followed by 47 zeros has the sort flag clear and decodes to
`(0, -2)`, whose `y` is the lexicographically largest root. -/
theorem from_compressed_unchecked_sort_flag_witness :
    (G1Affine.from_compressed_unchecked (0x80 :: List.replicate 47 0) = some ⟨0, -2, false⟩ ∧
      G1Affine.is_identity ⟨0, -2, false⟩ = false) ∧
    ((0x80 :: List.replicate 47 0).getD 0 0).testBit 5 = false ∧
    Fp.lexicographically_largest (-2) = true ∧
    Fp.lexicographically_largest (G1Affine.getY ⟨0, -2, false⟩) =
      (decide (G1Affine.getY ⟨0, -2, false⟩ ≠ 0) &&
        !((0x80 :: List.replicate 47 0).getD 0 0).testBit 5) :=
  have h : G1Affine.from_compressed_unchecked (0x80 :: List.replicate 47 0) =
      some ⟨0, -2, false⟩ := by decide!
  ⟨⟨h, rfl⟩, by decide, by decide!, from_compressed_unchecked_sort_flag _ _ h rfl⟩

/-! ## Flag bits written by the compressed encoder -/

theorem infinity_byte_flags (c : Nat) (hc : c < 32) :
    (c ||| 1 <<< 7 ||| 0 ||| 1 <<< 5).testBit 7 = true ∧
      (c ||| 1 <<< 7 ||| 0 ||| 1 <<< 5).testBit 5 = true := by
  have key : ∀ d : Fin 32, (d.val ||| 1 <<< 7 ||| 0 ||| 1 <<< 5).testBit 7 = true ∧
      (d.val ||| 1 <<< 7 ||| 0 ||| 1 <<< 5).testBit 5 = true := by
    decide!
  exact key ⟨c, hc⟩

/-- Byte 0 of the compressed encoding of a point with the infinity flag set has bit 7 set,
bit 6 clear and bit 5 set. -/
theorem to_compressed_infinity_byte0 (P : G1Affine) (h : P.infinity = true) :
    (P.to_compressed.getD 0 0).testBit 7 = true ∧
      (P.to_compressed.getD 0 0).testBit 6 = false ∧
      (P.to_compressed.getD 0 0).testBit 5 = true := by
  refine ⟨?_, to_compressed_infinity_bit6 P h, ?_⟩
  all_goals
    unfold G1Affine.to_compressed
    simp only [h, if_true, Bool.not_true, Bool.false_and, Bool.false_eq_true, if_false]
    rw [getD_set_zero _ _ (by rw [to_bytes_length]; decide)]
    have hlt := to_bytes_head_lt P.x
    revert hlt
    generalize (Fp.to_bytes P.x).getD 0 0 = c
    intro hlt
  · exact (infinity_byte_flags c hlt).1
  · exact (infinity_byte_flags c hlt).2

/-- Byte 0 of the compressed encoding of a point with the infinity flag clear has bits 7
and 6 set, and bit 5 set exactly when `y` is not the lexicographically largest root. -/
theorem to_compressed_finite_byte0 (P : G1Affine) (h : P.infinity = false) :
    (P.to_compressed.getD 0 0).testBit 7 = true ∧
      (P.to_compressed.getD 0 0).testBit 6 = true ∧
      (P.to_compressed.getD 0 0).testBit 5 = !Fp.lexicographically_largest P.y := by
  rw [to_compressed_finite P h]
  cases Fp.lexicographically_largest P.y <;> decide

/-- C12. Byte 0 of `to_compressed()` always has bit 7 set, but bit 6 is set exactly when the
point is NOT the identity: the generator is encoded with bit 7 set and bit 6 set, the
identity with bit 6 clear. -/
theorem to_compressed_bits_7_and_6 :
    (∀ P : G1Affine, (P.to_compressed.getD 0 0).testBit 7 = true ∧
      (P.to_compressed.getD 0 0).testBit 6 = !P.is_identity) ∧
    (G1Affine.generator.is_identity = false ∧
      (G1Affine.generator.to_compressed.getD 0 0).testBit 7 = true ∧
      (G1Affine.generator.to_compressed.getD 0 0).testBit 6 = true) ∧
    (G1Affine.identity.is_identity = true ∧
      (G1Affine.identity.to_compressed.getD 0 0).testBit 6 = false) := by
  have all : ∀ P : G1Affine, (P.to_compressed.getD 0 0).testBit 7 = true ∧
      (P.to_compressed.getD 0 0).testBit 6 = !P.is_identity := by
    intro P
    unfold G1Affine.is_identity
    cases h : P.infinity
    · exact ⟨(to_compressed_finite_byte0 P h).1, (to_compressed_finite_byte0 P h).2.1⟩
    · exact ⟨(to_compressed_infinity_byte0 P h).1, (to_compressed_infinity_byte0 P h).2.1⟩
  exact ⟨all, ⟨rfl, (all _).1, (all _).2⟩, ⟨rfl, (all _).2⟩⟩

/-- C13. Bit 5 of byte 0 of `to_compressed()` is set exactly when it should be clear: it is
clear if and only if the point is not the identity and its `y` is the lexicographically
largest root. The identity and the generator (whose `y` is the smaller root) are both
encoded with bit 5 set. -/
theorem to_compressed_bit_5 :
    (∀ P : G1Affine, (P.to_compressed.getD 0 0).testBit 5 =
      !(!P.is_identity && Fp.lexicographically_largest P.getY)) ∧
    (G1Affine.identity.is_identity = true ∧
      (G1Affine.identity.to_compressed.getD 0 0).testBit 5 = true) ∧
    (G1Affine.generator.is_identity = false ∧
      Fp.lexicographically_largest G1Affine.generator.getY = false ∧
      (G1Affine.generator.to_compressed.getD 0 0).testBit 5 = true) := by
  have all : ∀ P : G1Affine, (P.to_compressed.getD 0 0).testBit 5 =
      !(!P.is_identity && Fp.lexicographically_largest P.getY) := by
    intro P
    unfold G1Affine.is_identity G1Affine.getY
    cases h : P.infinity
    · rw [(to_compressed_finite_byte0 P h).2.2]
      rfl
    · rw [(to_compressed_infinity_byte0 P h).2.2]
      rfl
  have hg : Fp.lexicographically_largest G1Affine.generator.getY = false := by decide!
  refine ⟨all, ⟨rfl, ?_⟩, ⟨rfl, hg, ?_⟩⟩
  · rw [all]; rfl
  · rw [all, hg]; rfl

/-! ## The modulus is prime -/

theorem mod_pow_eq (n a : Nat) : ∀ k e, e < 2 ^ k → mod_pow n a e k = a ^ e % n := by
  intro k
  induction k with
  | zero =>
    intro e he
    have : e = 0 := by simpa using he
    subst this
    simp [mod_pow]
  | succ k ih =>
    intro e he
    have h2 : e / 2 < 2 ^ k := by
      rw [Nat.div_lt_iff_lt_mul (by norm_num)]
      rw [pow_succ] at he
      exact he
    have hr := ih (e / 2) h2
    have hsplit : e = 2 * (e / 2) + e % 2 := (Nat.div_add_mod e 2).symm
    unfold mod_pow
    simp only [hr]
    rcases Nat.mod_two_eq_zero_or_one e with h0 | h1
    · rw [if_neg (by omega)]
      conv_rhs => rw [hsplit, h0, add_zero, two_mul, pow_add]
      rw [← Nat.mul_mod]
    · rw [if_pos h1]
      conv_rhs => rw [hsplit, h1, two_mul, pow_add, pow_add, pow_one]
      rw [Nat.mul_mod (a ^ (e / 2) * a ^ (e / 2)) a n, Nat.mul_mod (a ^ (e / 2) % n * (a ^ (e / 2) % n) % n) a n,
        Nat.mod_mod, ← Nat.mul_mod (a^(e/2)) (a^(e/2)) n]

theorem pocklington_step (N a q P : Nat) (hN : 1 < N) (hq : q.Prime) (hqd : q ∣ N - 1)
    (h1 : a ^ (N - 1) % N = 1) (h2 : Nat.gcd (a ^ ((N - 1) / q) % N + (N - 1)) N = 1)
    (hP : P.Prime) (hPN : P ∣ N) : q ∣ P - 1 := by
  haveI := Fact.mk hP
  haveI := Fact.mk hq
  have hNP : (N : ZMod P) = 0 := (ZMod.natCast_zmod_eq_zero_iff_dvd N P).2 hPN
  have cast_mod : ∀ m : Nat, ((m % N : Nat) : ZMod P) = (m : ZMod P) := by
    intro m
    conv_rhs => rw [← Nat.div_add_mod m N]
    push_cast
    rw [hNP, zero_mul, zero_add]
  set x : ZMod P := (a : ZMod P) ^ ((N - 1) / q) with hx
  have hxq : x ^ q = 1 := by
    rw [hx, ← pow_mul, Nat.div_mul_cancel hqd]
    have := cast_mod (a ^ (N - 1))
    rw [h1] at this
    push_cast at this
    exact this.symm
  have hx1 : x ≠ 1 := by
    intro h
    have hA : ((a ^ ((N - 1) / q) % N : Nat) : ZMod P) = 1 := by
      rw [cast_mod]
      push_cast
      exact h
    have hz : ((a ^ ((N - 1) / q) % N + (N - 1) : Nat) : ZMod P) = 0 := by
      rw [Nat.cast_add, hA, Nat.cast_sub (le_of_lt hN), hNP]
      simp
    have hdvd : P ∣ a ^ ((N - 1) / q) % N + (N - 1) :=
      (ZMod.natCast_zmod_eq_zero_iff_dvd _ P).1 hz
    have : P ∣ 1 := by
      rw [← h2]
      exact Nat.dvd_gcd hdvd hPN
    exact hP.one_lt.ne' (Nat.dvd_one.1 this)
  have hord : orderOf x = q := orderOf_eq_prime hxq hx1
  have hx0 : x ≠ 0 := by
    intro h
    rw [h, zero_pow hq.ne_zero] at hxq
    exact zero_ne_one hxq
  have := orderOf_dvd_of_pow_eq_one (ZMod.pow_card_sub_one_eq_one hx0)
  rwa [hord] at this

theorem pocklington_factors (N a : Nat) (qs : List Nat) (hN : 1 < N) (hb : N < 2 ^ 400)
    (hc : pocklington_check N a qs = true) (hp : ∀ q ∈ qs, q.Prime) (hnd : qs.Nodup)
    (P : Nat) (hP : P.Prime) (hPN : P ∣ N) : qs.prod ∣ P - 1 := by
  unfold pocklington_check at hc
  rw [Bool.and_eq_true, beq_iff_eq, List.all_eq_true] at hc
  obtain ⟨h1, hall⟩ := hc
  have hlt : N - 1 < 2 ^ 400 := lt_of_le_of_lt (Nat.sub_le _ _) hb
  rw [mod_pow_eq N a 400 (N - 1) hlt] at h1
  induction qs with
  | nil => simp
  | cons q qs ih =>
    rw [List.prod_cons]
    have hq : q.Prime := hp q (List.mem_cons_self _ _)
    have hcq := hall q (List.mem_cons_self _ _)
    rw [Bool.and_eq_true, beq_iff_eq, beq_iff_eq] at hcq
    obtain ⟨hqd, hg⟩ := hcq
    rw [mod_pow_eq N a 400 _ (lt_of_le_of_lt (Nat.div_le_self _ _) hlt)] at hg
    have hqP : q ∣ P - 1 :=
      pocklington_step N a q P hN hq (Nat.dvd_of_mod_eq_zero hqd) h1 hg hP hPN
    have hrest : qs.prod ∣ P - 1 :=
      ih (fun r hr => hp r (List.mem_cons_of_mem _ hr)) (List.nodup_cons.1 hnd).2
        (fun r hr => hall r (List.mem_cons_of_mem _ hr))
    have hcop : Nat.Coprime q qs.prod := by
      rw [Nat.coprime_list_prod_right_iff]
      intro r hr
      apply (Nat.coprime_primes hq (hp r (List.mem_cons_of_mem _ hr))).2
      intro h
      rw [h] at hnd
      exact (List.nodup_cons.1 hnd).1 hr
    exact Nat.Coprime.mul_dvd_of_dvd_of_dvd hcop hqP hrest

/-- Pocklington's criterion: the checked prime divisors of `N - 1` have a product above
`√N`. -/
theorem pocklington (N a : Nat) (qs : List Nat) (hN : 1 < N) (hb : N < 2 ^ 400)
    (hc : pocklington_check N a qs = true) (hp : ∀ q ∈ qs, q.Prime) (hnd : qs.Nodup)
    (hbig : N < qs.prod * qs.prod) : N.Prime := by
  by_contra hnp
  have hm := Nat.minFac_prime (ne_of_gt hN)
  have hd := pocklington_factors N a qs hN hb hc hp hnd _ hm (Nat.minFac_dvd N)
  have hle : qs.prod ≤ N.minFac - 1 := Nat.le_of_dvd (Nat.sub_pos_of_lt hm.one_lt) hd
  have hsq := Nat.minFac_sq_le_self (by omega) hnp
  have : qs.prod * qs.prod ≤ N.minFac ^ 2 := by
    rw [pow_two]
    exact Nat.mul_le_mul (by omega) (by omega)
  omega

theorem divisor_congr (N F : Nat) (h : ∀ P : Nat, P.Prime → P ∣ N → F ∣ P - 1) :
    ∀ M : Nat, M ∣ N → 0 < M → F ∣ M - 1 := by
  intro M
  induction M using Nat.recOnMul with
  | h0 => intro _ h0; exact absurd h0 (lt_irrefl 0)
  | h1 => intro _ _; simp
  | hp p hp => intro hd _; exact h p hp hd
  | h a b iha ihb =>
    intro hd hpos
    have ha0 : 0 < a := Nat.pos_of_ne_zero (by rintro rfl; simp at hpos)
    have hb0 : 0 < b := Nat.pos_of_ne_zero (by rintro rfl; simp at hpos)
    have h1 := iha (dvd_trans (dvd_mul_right a b) hd) ha0
    have h2 := ihb (dvd_trans (dvd_mul_left b a) hd) hb0
    have : a * b - 1 = (a - 1) * b + (b - 1) := by
      obtain ⟨a', rfl⟩ : ∃ a', a = a' + 1 := ⟨a - 1, by omega⟩
      obtain ⟨b', rfl⟩ : ∃ b', b = b' + 1 := ⟨b - 1, by omega⟩
      simp only [Nat.add_sub_cancel]
      have : (a' + 1) * (b' + 1) = a' * (b' + 1) + b' + 1 := by ring
      rw [this]
      simp
    rw [this]
    exact dvd_add (Dvd.dvd.mul_right h1 b) h2

/-- The criterion of Brillhart, Lehmer and Selfridge: the checked prime divisors of `N - 1`
have a product `F` above the cube root of `N`, and with `(N - 1) / F = c2·F + c1` the number
`c1² - 4·c2` lies strictly between two consecutive squares. -/
theorem pocklington_cube (N a : Nat) (qs : List Nat) (s : Nat) (hN : 1 < N)
    (hb : N < 2 ^ 400) (hc : pocklington_check N a qs = true) (hp : ∀ q ∈ qs, q.Prime)
    (hnd : qs.Nodup) (hF : qs.prod ∣ N - 1)
    (hbig : N < qs.prod * qs.prod * qs.prod)
    (hs1 : s * s + 4 * ((N - 1) / qs.prod / qs.prod) <
      (N - 1) / qs.prod % qs.prod * ((N - 1) / qs.prod % qs.prod))
    (hs2 : (N - 1) / qs.prod % qs.prod * ((N - 1) / qs.prod % qs.prod) <
      (s + 1) * (s + 1) + 4 * ((N - 1) / qs.prod / qs.prod)) : N.Prime := by
  by_contra hnp
  have hcong := divisor_congr N qs.prod (pocklington_factors N a qs hN hb hc hp hnd)
  revert hF hbig hs1 hs2 hcong
  generalize qs.prod = F
  intro hF hbig hs1 hs2 hcong
  have hFpos : 0 < F := by
    rcases Nat.eq_zero_or_pos F with h | h
    · subst h; simp at hbig
    · exact h
  have hm := Nat.minFac_prime (ne_of_gt hN)
  have hmd := Nat.minFac_dvd N
  obtain ⟨M, hM⟩ := hmd
  have hM1 : 1 < M := by
    rcases Nat.lt_or_ge 1 M with h | h
    · exact h
    · exfalso
      interval_cases M
      · omega
      · rw [mul_one] at hM
        rw [hM] at hnp
        exact hnp (by rw [← hM] at hm ⊢; exact hm)
  obtain ⟨u, hu⟩ := hcong N.minFac ⟨M, hM⟩ hm.pos
  obtain ⟨v, hv⟩ := hcong M (Dvd.intro_left N.minFac hM.symm) (by omega)
  have hP : N.minFac = F * u + 1 := by have := hm.one_lt; omega
  have hMv : M = F * v + 1 := by omega
  have hu1 : 1 ≤ u := by
    rcases Nat.eq_zero_or_pos u with h | h
    · subst h; have := hm.one_lt; omega
    · exact h
  have hv1 : 1 ≤ v := by
    rcases Nat.eq_zero_or_pos v with h | h
    · subst h; omega
    · exact h
  have hNeq : N = u * v * (F * F) + (u + v) * F + 1 := by
    rw [hM, hP, hMv]; ring
  have huv : u * v < F := by
    by_contra hge
    push_neg at hge
    have : F * (F * F) ≤ u * v * (F * F) := Nat.mul_le_mul_right _ hge
    have h3 : F * F * F = F * (F * F) := by ring
    omega
  have huv2 : u + v < F := by
    by_contra hge
    push_neg at hge
    have h1 : u + v ≤ u * v + 1 := by nlinarith
    have h2 : F - 1 ≤ u * v := by omega
    have h3 : (F - 1) * (F * F) ≤ u * v * (F * F) := Nat.mul_le_mul_right _ h2
    have h4 : F * F ≤ (u + v) * F := Nat.mul_le_mul_right _ hge
    have h5 : (F - 1) * (F * F) + F * F = F * F * F := by
      obtain ⟨F', rfl⟩ : ∃ F', F = F' + 1 := ⟨F - 1, by omega⟩
      simp only [Nat.add_sub_cancel]; ring
    omega
  have hR : (N - 1) / F = u * v * F + (u + v) := by
    have : N - 1 = (u * v * F + (u + v)) * F := by rw [hNeq]; simp; ring
    rw [this, Nat.mul_div_cancel _ hFpos]
  have hc1 : (N - 1) / F % F = u + v := by
    rw [hR, Nat.mul_add_mod_of_lt huv2]
  have hc2 : (N - 1) / F / F = u * v := by
    rw [hR, Nat.add_div_of_dvd_right (Dvd.intro_left _ rfl), Nat.mul_div_cancel _ hFpos,
      Nat.div_eq_of_lt huv2, add_zero]
  rw [hc1, hc2] at hs1 hs2
  rcases le_total u v with h | h
  · obtain ⟨d, rfl⟩ := Nat.exists_eq_add_of_le h
    have e : (u + (u + d)) * (u + (u + d)) = d * d + 4 * (u * (u + d)) := by ring
    rw [e] at hs1 hs2
    have a1 : s * s < d * d := by omega
    have a2 : d * d < (s + 1) * (s + 1) := by omega
    have b1 : s < d := Nat.mul_self_lt_mul_self_iff.1 a1
    have b2 : d < s + 1 := Nat.mul_self_lt_mul_self_iff.1 a2
    omega
  · obtain ⟨d, rfl⟩ := Nat.exists_eq_add_of_le h
    have e : (v + d + v) * (v + d + v) = d * d + 4 * ((v + d) * v) := by ring
    rw [e] at hs1 hs2
    have a1 : s * s < d * d := by omega
    have a2 : d * d < (s + 1) * (s + 1) := by omega
    have b1 : s < d := Nat.mul_self_lt_mul_self_iff.1 a1
    have b2 : d < s + 1 := Nat.mul_self_lt_mul_self_iff.1 a2
    omega

theorem prime_582767 : Nat.Prime 582767 := by norm_num
theorem prime_859267 : Nat.Prime 859267 := by norm_num
theorem prime_609743 : Nat.Prime 609743 := by norm_num

theorem prime_52437899 : Nat.Prime 52437899 :=
  pocklington 52437899 2 [609743] (by decide) (by decide!) (by decide!)
    (by simp [prime_609743]) (by decide) (by decide)

theorem prime_9272813673901 : Nat.Prime 9272813673901 :=
  pocklington 9272813673901 2 [582767, 7577] (by decide) (by decide!) (by decide!)
    (by
      intro q hq
      simp only [List.mem_cons, List.mem_singleton, List.not_mem_nil, or_false] at hq
      rcases hq with rfl | rfl
      · exact prime_582767
      · norm_num)
    (by decide) (by decide)

theorem prime_1928745244171409 : Nat.Prime 1928745244171409 :=
  pocklington 1928745244171409 2 [9272813673901] (by decide) (by decide!) (by decide!)
    (by simp [prime_9272813673901]) (by decide) (by decide)

theorem prime_7259797099061183477 : Nat.Prime 7259797099061183477 :=
  pocklington 7259797099061183477 2 [1928745244171409] (by decide) (by decide!) (by decide!)
    (by simp [prime_1928745244171409]) (by decide) (by decide)

theorem prime_2584487767265781317813 : Nat.Prime 2584487767265781317813 :=
  pocklington 2584487767265781317813 2 [7259797099061183477] (by decide) (by decide!)
    (by decide!) (by simp [prime_7259797099061183477]) (by decide) (by decide)

theorem MODULUS_prime : Nat.Prime MODULUS :=
  pocklington_cube MODULUS 2
    [2, 3, 11, 23, 47, 10177, 859267, 52437899, 2584487767265781317813]
    38580554019734540270674599398072549052841406
    (by decide) (by decide!) (by decide!)
    (by
      intro q hq
      simp only [List.mem_cons, List.mem_singleton, List.not_mem_nil, or_false] at hq
      rcases hq with rfl | rfl | rfl | rfl | rfl | rfl | rfl | rfl | rfl
      · norm_num
      · norm_num
      · norm_num
      · norm_num
      · norm_num
      · norm_num
      · exact prime_859267
      · exact prime_52437899
      · exact prime_2584487767265781317813)
    (by decide) (by decide!) (by decide!) (by decide!) (by decide!)

/-! ## Projective equality -/

theorem fp_mul_inv_cancel (z : Fp) (hz : z ≠ 0) : z * z⁻¹ = 1 := by
  haveI : Fact (Nat.Prime MODULUS) := ⟨MODULUS_prime⟩
  exact mul_inv_cancel₀ hz

theorem fp_mul_eq_zero (u v : Fp) (h : u * v = 0) : u = 0 ∨ v = 0 := by
  haveI : Fact (Nat.Prime MODULUS) := ⟨MODULUS_prime⟩
  exact mul_eq_zero.1 h

theorem fp_cross_iff (x1 z1 x2 z2 : Fp) (h1 : z1 ≠ 0) (h2 : z2 ≠ 0) :
    x1 * z2 = x2 * z1 ↔ x1 * z1⁻¹ = x2 * z2⁻¹ := by
  have e1 := fp_mul_inv_cancel z1 h1
  have e2 := fp_mul_inv_cancel z2 h2
  constructor
  · intro h
    calc x1 * z1⁻¹ = x1 * z2 * (z1⁻¹ * z2⁻¹) := by
          rw [show x1 * z2 * (z1⁻¹ * z2⁻¹) = x1 * z1⁻¹ * (z2 * z2⁻¹) by ring, e2, mul_one]
      _ = x2 * z1 * (z1⁻¹ * z2⁻¹) := by rw [h]
      _ = x2 * z2⁻¹ := by
          rw [show x2 * z1 * (z1⁻¹ * z2⁻¹) = x2 * z2⁻¹ * (z1 * z1⁻¹) by ring, e1, mul_one]
  · intro h
    calc x1 * z2 = x1 * z1⁻¹ * (z1 * z2) := by
          rw [show x1 * z1⁻¹ * (z1 * z2) = x1 * z2 * (z1 * z1⁻¹) by ring, e1, mul_one]
      _ = x2 * z2⁻¹ * (z1 * z2) := by rw [h]
      _ = x2 * z1 := by
          rw [show x2 * z2⁻¹ * (z1 * z2) = x2 * z1 * (z2 * z2⁻¹) by ring, e2, mul_one]

theorem projective_eq_cross (a b : G1Projective) :
    G1Projective.eq a b = true ↔
      ((a.z = 0 ∧ b.z = 0) ∨
        (a.z ≠ 0 ∧ b.z ≠ 0 ∧ a.x * b.z = b.x * a.z ∧ a.y * b.z = b.y * a.z)) := by
  unfold G1Projective.eq Fp.is_zero
  by_cases ha : a.z = 0 <;> by_cases hb : b.z = 0 <;> simp [ha, hb]

/-- C16. Projective `operator==` decides equality of the represented affine points: it holds
exactly when both `Z` are zero, or neither is and `X1/Z1 = X2/Z2`, `Y1/Z1 = Y2/Z2` (division
is multiplication by the inverse in the prime field `Fp`). Hence a point equals each of its
non-zero multiples `(λX, λY, λZ)`, and `==` is reflexive, symmetric and transitive. -/
theorem projective_eq_iff :
    (∀ z : Fp, z ≠ 0 → z * z⁻¹ = 1) ∧
    (∀ a b : G1Projective, G1Projective.eq a b = true ↔
      ((a.z = 0 ∧ b.z = 0) ∨
        (a.z ≠ 0 ∧ b.z ≠ 0 ∧ a.x * a.z⁻¹ = b.x * b.z⁻¹ ∧ a.y * a.z⁻¹ = b.y * b.z⁻¹))) ∧
    (∀ (a : G1Projective) (l : Fp), l ≠ 0 →
      G1Projective.eq a ⟨l * a.x, l * a.y, l * a.z⟩ = true) ∧
    (∀ a : G1Projective, G1Projective.eq a a = true) ∧
    (∀ a b : G1Projective, G1Projective.eq a b = true → G1Projective.eq b a = true) ∧
    (∀ a b c : G1Projective, G1Projective.eq a b = true → G1Projective.eq b c = true →
      G1Projective.eq a c = true) := by
  have key : ∀ a b : G1Projective, G1Projective.eq a b = true ↔
      ((a.z = 0 ∧ b.z = 0) ∨
        (a.z ≠ 0 ∧ b.z ≠ 0 ∧ a.x * a.z⁻¹ = b.x * b.z⁻¹ ∧ a.y * a.z⁻¹ = b.y * b.z⁻¹)) := by
    intro a b
    rw [projective_eq_cross]
    constructor
    · rintro (h | ⟨h1, h2, h3, h4⟩)
      · exact Or.inl h
      · exact Or.inr ⟨h1, h2, (fp_cross_iff _ _ _ _ h1 h2).1 h3,
          (fp_cross_iff _ _ _ _ h1 h2).1 h4⟩
    · rintro (h | ⟨h1, h2, h3, h4⟩)
      · exact Or.inl h
      · exact Or.inr ⟨h1, h2, (fp_cross_iff _ _ _ _ h1 h2).2 h3,
          (fp_cross_iff _ _ _ _ h1 h2).2 h4⟩
  refine ⟨fp_mul_inv_cancel, key, fun a l hl => ?_, fun a => ?_, fun a b h => ?_,
    fun a b c hab hbc => ?_⟩
  · rw [projective_eq_cross]
    by_cases hz : a.z = 0
    · left
      exact ⟨hz, by show l * a.z = 0; rw [hz, mul_zero]⟩
    · right
      refine ⟨hz, ?_, ?_, ?_⟩
      · show l * a.z ≠ 0
        intro h
        rcases fp_mul_eq_zero _ _ h with h | h
        · exact hl h
        · exact hz h
      · show a.x * (l * a.z) = l * a.x * a.z
        ring
      · show a.y * (l * a.z) = l * a.y * a.z
        ring
  · rw [projective_eq_cross]
    by_cases hz : a.z = 0
    · exact Or.inl ⟨hz, hz⟩
    · exact Or.inr ⟨hz, hz, rfl, rfl⟩
  · rw [projective_eq_cross] at h ⊢
    rcases h with ⟨h1, h2⟩ | ⟨h1, h2, h3, h4⟩
    · exact Or.inl ⟨h2, h1⟩
    · exact Or.inr ⟨h2, h1, h3.symm, h4.symm⟩
  · rw [key] at hab hbc ⊢
    rcases hab with ⟨h1, h2⟩ | ⟨h1, h2, h3, h4⟩
    · rcases hbc with ⟨g1, g2⟩ | ⟨g1, g2, g3, g4⟩
      · exact Or.inl ⟨h1, g2⟩
      · exact absurd h2 g1
    · rcases hbc with ⟨g1, g2⟩ | ⟨g1, g2, g3, g4⟩
      · exact absurd g1 h2
      · exact Or.inr ⟨h1, g2, h3.trans g3, h4.trans g4⟩

/-! ## Conversion from projective coordinates -/

theorem pow_bits_eq (a : Fp) : ∀ k e, e < 2 ^ k → Fp.pow_bits a e k = a ^ e := by
  intro k
  induction k with
  | zero =>
    intro e he
    have : e = 0 := by simpa using he
    subst this
    simp [Fp.pow_bits]
  | succ k ih =>
    intro e he
    have h2 : e / 2 < 2 ^ k := by
      rw [Nat.div_lt_iff_lt_mul (by norm_num)]
      rw [pow_succ] at he
      exact he
    have hsplit : e = 2 * (e / 2) + e % 2 := (Nat.div_add_mod e 2).symm
    unfold Fp.pow_bits
    simp only [ih (e / 2) h2]
    rcases Nat.mod_two_eq_zero_or_one e with h0 | h1
    · rw [if_neg (by omega)]
      conv_rhs => rw [hsplit, h0, add_zero, two_mul, pow_add]
    · rw [if_pos h1]
      conv_rhs => rw [hsplit, h1, two_mul, pow_add, pow_add, pow_one]

theorem fp_pow_card_sub_one (z : Fp) (hz : z ≠ 0) : z ^ (MODULUS - 1) = 1 := by
  haveI : Fact (Nat.Prime MODULUS) := ⟨MODULUS_prime⟩
  exact ZMod.pow_card_sub_one_eq_one hz

theorem invert_eq_inv (z : Fp) (hz : z ≠ 0) : Fp.invert z = some z⁻¹ := by
  have hlt : MODULUS - 2 < 2 ^ 384 := by decide!
  have hsucc : MODULUS - 2 + 1 = MODULUS - 1 := by decide!
  have h2 : z * z ^ (MODULUS - 2) = 1 := by
    rw [← pow_succ', hsucc]
    exact fp_pow_card_sub_one z hz
  have h3 : z ^ (MODULUS - 2) = z⁻¹ := by
    calc z ^ (MODULUS - 2) = z ^ (MODULUS - 2) * (z * z⁻¹) := by
          rw [fp_mul_inv_cancel z hz, mul_one]
      _ = z * z ^ (MODULUS - 2) * z⁻¹ := by ring
      _ = z⁻¹ := by rw [h2, one_mul]
  unfold Fp.invert Fp.pow
  rw [if_neg hz, pow_bits_eq z 384 _ hlt, h3]

/-- C14. The conversion from projective coordinates returns the identity `(0, 1, true)` when
`Z = 0`, and otherwise the coordinates `X·Z⁻¹`, `Y·Z⁻¹` but with the infinity flag still
set: `is_identity()` is true for every input. On the generator lifted with `Z = 1` it returns the generator's coordinates with the
flag set, which `operator==` identifies with the identity and not with the generator. -/
theorem from_projective_keeps_infinity_flag :
    (∀ point : G1Projective, point.z = 0 →
      G1Affine.from_projective point = ⟨0, 1, true⟩) ∧
    (∀ point : G1Projective, point.z ≠ 0 →
      point.z * point.z⁻¹ = 1 ∧
      G1Affine.from_projective point = ⟨point.x * point.z⁻¹, point.y * point.z⁻¹, true⟩) ∧
    (∀ point : G1Projective, (G1Affine.from_projective point).is_identity = true) ∧
    (G1Affine.from_projective
        ⟨G1Affine.generator.x, G1Affine.generator.y, 1⟩ =
      ⟨G1Affine.generator.x, G1Affine.generator.y, true⟩ ∧
      G1Affine.eq (G1Affine.from_projective
        ⟨G1Affine.generator.x, G1Affine.generator.y, 1⟩) G1Affine.generator = false) := by
  refine ⟨fun point h => ?_, fun point h => ⟨fp_mul_inv_cancel _ h, ?_⟩, fun point => ?_,
    ⟨by decide!, by decide!⟩⟩
  · unfold G1Affine.from_projective Fp.invert
    rw [if_pos h]
    rfl
  · unfold G1Affine.from_projective
    rw [invert_eq_inv _ h]
  · unfold G1Affine.from_projective
    cases Fp.invert point.z <;> rfl
